import Mathlib

/-!
Shallow embedding of the text-mining core of text_mining_hix.py.

Strings are modelled as List Char (abbreviated Str).  A Python cell value is
modelled by Value: a string, an integer, or a missing/NaN marker.  The regex
word scan re.findall of one-or-more word characters is modelled by
findallWordRuns over the character class isWordChar (letters, digits and
underscore; the Lean character predicates cover the ASCII range of the
Unicode classes used by Python).  Python dictionaries, used for result rows,
are modelled by insertion-ordered association lists with dictInsert, which
replaces the value of an existing key in place and appends a fresh key at
the end, as Python dict assignment does.  The pandas DataFrame produced by
process_sheet is modelled by ResultTable: a column list plus the row list;
for a non-empty row list pandas takes the union of the row keys in order of
first appearance (dictKeysUnion).  Reading the workbook from disk is an
external collaborator and is modelled by the Sheet structure handed in.
-/

abbrev Str := List Char

inductive Value where
  | str : Str → Value
  | int : Int → Value
  | na : Value
  deriving DecidableEq

/-- Model of the Python word-character class (regex character class w):
letters, digits, or underscore. -/
def isWordChar (c : Char) : Bool :=
  c.isAlphanum || c == '_'

/-- Model of Python str.lower applied characterwise. -/
def lowerStr (s : Str) : Str :=
  s.map Char.toLower

/-- Model of Python str.strip: drop whitespace from both ends. -/
def pyStrip (s : Str) : Str :=
  ((s.dropWhile Char.isWhitespace).reverse.dropWhile Char.isWhitespace).reverse

/-- The scanning loop of re.findall for one-or-more word characters: the
accumulator holds the current run reversed; a non-word character closes the
current run (if non-empty) and is discarded. -/
def wordRunsAux : Str → Str → List Str
  | [], acc => if acc.isEmpty then [] else [acc.reverse]
  | c :: rest, acc =>
    if isWordChar c then
      wordRunsAux rest (c :: acc)
    else if acc.isEmpty then
      wordRunsAux rest []
    else
      acc.reverse :: wordRunsAux rest []

/-- re.findall of one-or-more word characters over a string: the maximal
runs of word characters, left to right. -/
def findallWordRuns (s : Str) : List Str :=
  wordRunsAux s []

/-- tokenize from text_mining_hix.py: non-string input gives the empty list
(NaN safety); otherwise lowercase then take the maximal word-character runs. -/
def tokenize : Value → List Str
  | .str s => findallWordRuns (lowerStr s)
  | _ => []

/-- Spec-worded splitter: cut the string at every separator character,
keeping zero-length chunks.  Used to state the tokenizer specification
(split into maximal runs, separators discarded, empty runs dropped). -/
def chunksBySep (sep : Char → Bool) : Str → List Str
  | [] => [[]]
  | c :: rest =>
    if sep c then
      [] :: chunksBySep sep rest
    else
      match chunksBySep sep rest with
      | [] => [[c]]
      | r :: rs => (c :: r) :: rs

/-- Model of the Python string test: the second list starts with the first. -/
def beginsWith : Str → Str → Bool
  | [], _ => true
  | _ :: _, [] => false
  | a :: s, b :: t => a == b && beginsWith s t

/-- Model of the Python substring test (kw in t): small occurs contiguously
inside big. -/
def substrIn (small : Str) : Str → Bool
  | [] => beginsWith small []
  | c :: t => beginsWith small (c :: t) || substrIn small t

/-- The keyword-normalization comprehension of extract_keywords_from_text:
keep keywords that are non-empty and non-whitespace, then strip and
lowercase each. -/
def normalizedKeywords (medical_keywords : List Str) : List Str :=
  (medical_keywords.filter fun kw => !kw.isEmpty && !(pyStrip kw).isEmpty).map
    fun kw => lowerStr (pyStrip kw)

/-- extract_keywords_from_text from text_mining_hix.py.  The Python set of
tokens is modelled by dedup (only membership in it is ever used); the
substring branch appends a keyword on the first token that contains it,
which is the same list as filtering the keywords by an existential over the
token set. -/
def extract_keywords_from_text (text : Value) (medical_keywords : List Str)
    (use_substring : Bool) : List Str :=
  let tokens := tokenize text
  if tokens.isEmpty then []
  else
    let token_set := tokens.dedup
    let kws := normalizedKeywords medical_keywords
    if !use_substring then
      kws.filter fun kw => decide (kw ∈ token_set)
    else
      kws.filter fun kw => token_set.any fun t => substrIn kw t

def DUTCH_STOPWORDS : List Str :=
  ["de", "het", "en", "een", "in", "van", "met", "op", "te", "dat", "die",
   "is", "was", "bij", "als", "maar", "ook", "niet", "wel", "om", "voor",
   "naar", "uit", "aan", "door", "tot", "over", "onder", "hij", "zij", "ze",
   "hun", "zijn", "haar", "we", "wij", "jij", "je", "u", "ik"].map String.toList

/-- The loaded worksheet: a named-column schema and the rows, each row a map
from column name to cell value (the pandas row indexing r[column]). -/
structure Sheet where
  columns : List Str
  rows : List (Str → Value)

/-- One result row: a Python dict from column name to value, as an
insertion-ordered association list. -/
abbrev MatchRow := List (Str × Value)

/-- The pandas DataFrame returned by process_sheet: column list plus rows. -/
structure ResultTable where
  columns : List Str
  rows : List MatchRow
  deriving DecidableEq

/-- Python dict assignment row[k] = v: replace in place if the key exists,
else append at the end. -/
def dictInsert (row : MatchRow) (k : Str) (v : Value) : MatchRow :=
  if row.any fun p => p.1 == k then
    row.map fun p => if p.1 == k then (p.1, v) else p
  else
    row ++ [(k, v)]

/-- pandas column inference for a DataFrame built from a list of dicts:
union of the keys in order of first appearance. -/
def dictKeysUnion (rows : List MatchRow) : List Str :=
  rows.foldl (fun acc row => acc ++ (row.map Prod.fst).filter fun k => !acc.contains k) []

/-- The keyword comprehension at the top of process_sheet: strip only, no
lowercasing (unlike the one inside extract_keywords_from_text). -/
def strippedKeywords (medical_keywords : List Str) : List Str :=
  (medical_keywords.filter fun kw => !kw.isEmpty && !(pyStrip kw).isEmpty).map
    fun kw => pyStrip kw

/-- text if isinstance(text, str) else the empty string. -/
def coerceText (v : Value) : Value :=
  match v with
  | .str s => .str s
  | _ => .str []

/-- Python str.join over a list of strings. -/
def joinSep (sep : Str) : List Str → Str
  | [] => []
  | [w] => w
  | w :: ws => w ++ sep ++ joinSep sep ws

/-- The body of the row loop of process_sheet: the dict literal with the
patient id, then one 0/1 flag assignment per stripped keyword. -/
def buildRow (patient_id_column : Str) (pid : Value) (kws matched : List Str) : MatchRow :=
  kws.foldl (fun row kw => dictInsert row kw (.int (if kw ∈ matched then 1 else 0)))
    (dictInsert [] patient_id_column pid)

/-- The missing-column comprehension of process_sheet. -/
def missingColumns (df : Sheet) (patient_id_column text_column : Str) : List Str :=
  [patient_id_column, text_column].filter fun c => decide (c ∉ df.columns)

def missingMsgA : Str := "Missing required columns: ".toList

def missingMsgB : Str := ".\nAvailable columns: ".toList

def commaSpace : Str := ", ".toList

/-- process_sheet from text_mining_hix.py, after the external workbook read
(modelled by the Sheet argument).  The single Python row loop both appends
the match row and extends the word accumulator; here the two products are
the two mapped lists.  The empty-DataFrame fixup reinstates the patient-id
column plus the stripped keyword columns when there are no rows. -/
def process_sheet (df : Sheet) (medical_keywords : List Str)
    (patient_id_column text_column : Str) (use_substring : Bool) :
    Except Str (ResultTable × List Str) :=
  let missing := missingColumns df patient_id_column text_column
  if missing.isEmpty then
    let kws := strippedKeywords medical_keywords
    let rows := df.rows.map fun r =>
      buildRow patient_id_column (r patient_id_column) kws
        (extract_keywords_from_text (coerceText (r text_column)) kws use_substring)
    let all_words := (df.rows.map fun r =>
      (tokenize (coerceText (r text_column))).filter fun t =>
        decide (t ∉ DUTCH_STOPWORDS)).flatten
    let results : ResultTable :=
      if rows.isEmpty then ⟨patient_id_column :: kws, []⟩
      else ⟨dictKeysUnion rows, rows⟩
    .ok (results, all_words)
  else
    .error (missingMsgA ++ joinSep commaSpace missing ++
      (missingMsgB ++ joinSep commaSpace df.columns))

def emptyCorpusMsg : Str := "No words available to generate a word cloud.".toList

/-- build_wordcloud_image from text_mining_hix.py: join the words with
spaces; an all-whitespace join is the empty-corpus error.  The WordCloud
rendering itself is an external collaborator; the model returns the text
handed to it. -/
def build_wordcloud_image (all_words : List Str) : Except Str Str :=
  let text := joinSep (' ' :: []) all_words
  if (pyStrip text).isEmpty then
    .error emptyCorpusMsg
  else
    .ok text

/-! ### Concrete fixtures used to evaluate the model on closed inputs -/

def colId : Str := "patient_id".toList

def colReport : Str := "Report".toList

/-- A worksheet row with the given patient id and report text. -/
def sheetRow (idv : Int) (textv : Str) : Str → Value :=
  fun c => if c = colReport then .str textv else if c = colId then .int idv else .na

/-- One record whose report text is the single word pain. -/
def onePainSheet : Sheet :=
  ⟨[colId, colReport], [sheetRow 1 "pain".toList]⟩

/-- One record whose report text starts with the Dutch stopword de. -/
def dePatientSheet : Sheet :=
  ⟨[colId, colReport], [sheetRow 1 "de patient".toList]⟩

/-- A worksheet with the right schema and no records. -/
def emptySheet : Sheet :=
  ⟨[colId, colReport], []⟩

/-! ### Helper lemmas -/

lemma chunksBySep_ne_nil (sep : Char → Bool) (s : Str) : chunksBySep sep s ≠ [] := by
  cases s with
  | nil => simp [chunksBySep]
  | cons c rest =>
    simp only [chunksBySep]
    by_cases h : sep c = true
    · simp [h]
    · simp only [h]
      rcases hrec : chunksBySep sep rest with _ | ⟨r, rs⟩ <;> simp

lemma wordRunsAux_chunks (s : Str) : ∀ (acc h : Str) (tl : List Str),
    chunksBySep (fun c => !isWordChar c) s = h :: tl →
    wordRunsAux s acc = ((acc.reverse ++ h) :: tl).filter (fun t => !t.isEmpty) := by
  induction s with
  | nil =>
    intro acc h tl hc
    simp only [chunksBySep, List.cons.injEq] at hc
    obtain ⟨rfl, rfl⟩ := hc
    by_cases ha : acc = []
    · subst ha; simp [wordRunsAux]
    · simp [wordRunsAux, List.isEmpty_eq_true, ha, List.filter_cons,
        List.reverse_eq_nil_iff]
  | cons c rest ih =>
    intro acc h tl hc
    simp only [chunksBySep] at hc
    by_cases hw : isWordChar c = true
    · simp only [hw, Bool.not_true, reduceIte] at hc
      rcases hrest : chunksBySep (fun c => !isWordChar c) rest with _ | ⟨r, rs⟩
      · exact absurd hrest (chunksBySep_ne_nil _ _)
      · rw [hrest] at hc
        simp only [List.cons.injEq] at hc
        obtain ⟨rfl, rfl⟩ := hc
        simp only [wordRunsAux, hw, if_true]
        rw [ih (c :: acc) r _ hrest]
        simp [List.append_assoc]
    · simp only [Bool.not_eq_true] at hw
      simp only [hw, Bool.not_false, reduceIte] at hc
      rcases hrest : chunksBySep (fun c => !isWordChar c) rest with _ | ⟨r, rs⟩
      · exact absurd hrest (chunksBySep_ne_nil _ _)
      · rw [hrest] at hc
        obtain ⟨rfl, rfl⟩ := hc
        simp only [wordRunsAux, hw, Bool.false_eq_true, if_false]
        by_cases ha : acc = []
        · subst ha
          simp only [List.isEmpty_nil, if_true]
          rw [ih [] r _ hrest]
          simp [List.filter_cons]
        · rw [if_neg (by simp [List.isEmpty_eq_true, ha])]
          rw [ih [] r _ hrest]
          simp [List.filter_cons, List.isEmpty_eq_true, List.reverse_eq_nil_iff, ha]

lemma findallWordRuns_chunks (s : Str) :
    findallWordRuns s =
      (chunksBySep (fun c => !isWordChar c) s).filter (fun t => !t.isEmpty) := by
  rcases hc : chunksBySep (fun c => !isWordChar c) s with _ | ⟨h, tl⟩
  · exact absurd hc (chunksBySep_ne_nil _ _)
  · rw [findallWordRuns, wordRunsAux_chunks s [] h tl hc]
    simp

lemma mem_chunksBySep_not_sep (sep : Char → Bool) :
    ∀ (s : Str) (t : Str) (c : Char), t ∈ chunksBySep sep s → c ∈ t → sep c = false := by
  intro s
  induction s with
  | nil =>
    intro t c ht hc
    simp only [chunksBySep, List.mem_singleton] at ht
    subst ht
    exact absurd hc (List.not_mem_nil c)
  | cons a rest ih =>
    intro t c ht hc
    simp only [chunksBySep] at ht
    by_cases hs : sep a = true
    · rw [if_pos hs] at ht
      rcases List.mem_cons.mp ht with hteq | ht2
      · subst hteq; exact absurd hc (List.not_mem_nil c)
      · exact ih t c ht2 hc
    · rw [if_neg hs] at ht
      rcases hrest : chunksBySep sep rest with _ | ⟨r, rs⟩
      · exact absurd hrest (chunksBySep_ne_nil _ _)
      · rw [hrest] at ht
        rcases List.mem_cons.mp ht with hteq | ht2
        · subst hteq
          rcases List.mem_cons.mp hc with hceq | hcr
          · subst hceq
            exact Bool.eq_false_iff.mpr hs
          · exact ih r c (by rw [hrest]; exact List.mem_cons_self r rs) hcr
        · exact ih t c (by rw [hrest]; exact List.mem_cons_of_mem r ht2) hc

lemma tokenize_token_facts (v : Value) (t : Str) (ht : t ∈ tokenize v) :
    t ≠ [] ∧ ∀ c ∈ t, isWordChar c = true := by
  cases v with
  | str s =>
    simp only [tokenize, findallWordRuns_chunks, List.mem_filter] at ht
    obtain ⟨hmem, hne⟩ := ht
    refine ⟨by simpa [List.isEmpty_eq_true] using hne, fun c hc => ?_⟩
    have := mem_chunksBySep_not_sep (fun c => !isWordChar c) (lowerStr s) t c hmem hc
    simpa using this
  | int n => exact absurd ht (List.not_mem_nil t)
  | na => exact absurd ht (List.not_mem_nil t)

lemma whitespace_not_wordChar (c : Char) (h : c.isWhitespace = true) :
    isWordChar c = false := by
  simp only [Char.isWhitespace, Bool.or_eq_true, decide_eq_true_eq] at h
  rcases h with ((rfl | rfl) | rfl) | rfl <;> decide

lemma pyStrip_eq_nil_iff (s : Str) :
    pyStrip s = [] ↔ ∀ c ∈ s, c.isWhitespace = true := by
  unfold pyStrip
  rw [List.reverse_eq_nil_iff, List.dropWhile_eq_nil_iff]
  constructor
  · intro h c hc
    rcases List.mem_append.mp
        (by rw [List.takeWhile_append_dropWhile (p := Char.isWhitespace) (l := s)]; exact hc) with
      htk | hdr
    · exact List.mem_takeWhile_imp htk
    · exact h c (List.mem_reverse.mpr hdr)
  · intro h c hc
    exact h c ((List.dropWhile_sublist _).mem (List.mem_reverse.mp hc))

lemma mem_joinSep (sep : Str) :
    ∀ (ws : List Str) (w : Str) (c : Char), w ∈ ws → c ∈ w → c ∈ joinSep sep ws := by
  intro ws
  induction ws with
  | nil => intro w c hw; exact absurd hw (List.not_mem_nil w)
  | cons w0 rest ih =>
    intro w c hw hc
    rcases rest with _ | ⟨w1, rest2⟩
    · simp only [List.mem_cons, List.not_mem_nil, or_false] at hw
      subst hw
      simpa [joinSep] using hc
    · simp only [joinSep, List.mem_append]
      rcases List.mem_cons.mp hw with rfl | hw2
      · exact Or.inl (Or.inl hc)
      · exact Or.inr (ih w c hw2 hc)

lemma beginsWith_iff (small : Str) :
    ∀ big, beginsWith small big = true ↔ ∃ post, small ++ post = big := by
  induction small with
  | nil => intro big; simp [beginsWith]
  | cons a s ih =>
    intro big
    cases big with
    | nil => simp [beginsWith]
    | cons b t =>
      simp only [beginsWith, Bool.and_eq_true, beq_iff_eq, ih t, List.cons_append,
        List.cons.injEq]
      constructor
      · rintro ⟨rfl, post, rfl⟩; exact ⟨post, rfl, rfl⟩
      · rintro ⟨post, rfl, rfl⟩; exact ⟨rfl, post, rfl⟩

lemma substrIn_iff (small : Str) :
    ∀ big, substrIn small big = true ↔ ∃ pre post, pre ++ small ++ post = big := by
  intro big
  induction big with
  | nil =>
    simp only [substrIn, beginsWith_iff]
    constructor
    · rintro ⟨post, h⟩
      exact ⟨[], post, by simpa using h⟩
    · rintro ⟨pre, post, h⟩
      rcases List.append_eq_nil.mp h with ⟨h1, h2⟩
      rcases List.append_eq_nil.mp h1 with ⟨rfl, rfl⟩
      exact ⟨[], by simp⟩
  | cons b t ih =>
    simp only [substrIn, Bool.or_eq_true, beginsWith_iff, ih]
    constructor
    · rintro (⟨post, h⟩ | ⟨pre, post, h⟩)
      · exact ⟨[], post, by simpa using h⟩
      · exact ⟨b :: pre, post, by simp [h]⟩
    · rintro ⟨pre, post, h⟩
      cases pre with
      | nil => exact Or.inl ⟨post, by simpa using h⟩
      | cons p ps =>
        simp only [List.cons_append, List.cons.injEq] at h
        exact Or.inr ⟨ps, post, h.2⟩

lemma substrIn_self (s : Str) : substrIn s s = true := by
  rw [substrIn_iff]
  exact ⟨[], [], by simp⟩

lemma extract_tokens_empty (text : Value) (mkws : List Str) (b : Bool)
    (h : tokenize text = []) : extract_keywords_from_text text mkws b = [] := by
  simp [extract_keywords_from_text, h]

lemma extract_whole_eq (text : Value) (mkws : List Str)
    (h : ¬(tokenize text).isEmpty = true) :
    extract_keywords_from_text text mkws false =
      (normalizedKeywords mkws).filter fun kw => decide (kw ∈ (tokenize text).dedup) := by
  simp only [extract_keywords_from_text]
  rw [if_neg h]
  simp

lemma extract_substr_eq (text : Value) (mkws : List Str)
    (h : ¬(tokenize text).isEmpty = true) :
    extract_keywords_from_text text mkws true =
      (normalizedKeywords mkws).filter fun kw =>
        (tokenize text).dedup.any fun t => substrIn kw t := by
  simp only [extract_keywords_from_text]
  rw [if_neg h]
  simp

lemma mem_extract_whole (text : Value) (mkws : List Str) (kw : Str) :
    kw ∈ extract_keywords_from_text text mkws false ↔
      kw ∈ normalizedKeywords mkws ∧ kw ∈ tokenize text := by
  by_cases h : tokenize text = []
  · simp [extract_tokens_empty text mkws false h, h]
  · rw [extract_whole_eq text mkws (by simpa [List.isEmpty_eq_true] using h)]
    simp [List.mem_filter, List.mem_dedup]

lemma mem_extract_substr (text : Value) (mkws : List Str) (kw : Str) :
    kw ∈ extract_keywords_from_text text mkws true ↔
      kw ∈ normalizedKeywords mkws ∧ ∃ t ∈ tokenize text, substrIn kw t = true := by
  by_cases h : tokenize text = []
  · simp [extract_tokens_empty text mkws true h, h]
  · rw [extract_substr_eq text mkws (by simpa [List.isEmpty_eq_true] using h)]
    simp [List.mem_filter, List.mem_dedup, List.any_eq_true]

lemma extract_subset_normalized (text : Value) (mkws : List Str) (mode : Bool)
    (kw : Str) (h : kw ∈ extract_keywords_from_text text mkws mode) :
    kw ∈ normalizedKeywords mkws := by
  by_cases he : tokenize text = []
  · rw [extract_tokens_empty text mkws mode he] at h
    exact absurd h (List.not_mem_nil kw)
  · have hne : ¬(tokenize text).isEmpty = true := by simpa [List.isEmpty_eq_true] using he
    cases mode with
    | false => rw [extract_whole_eq text mkws hne] at h; exact (List.mem_filter.mp h).1
    | true => rw [extract_substr_eq text mkws hne] at h; exact (List.mem_filter.mp h).1

lemma mem_normalizedKeywords (mkws : List Str) (kw : Str)
    (h : kw ∈ normalizedKeywords mkws) :
    kw ≠ [] ∧ ∃ kw0 ∈ mkws, pyStrip kw0 ≠ [] ∧ lowerStr (pyStrip kw0) = kw := by
  simp only [normalizedKeywords, List.mem_map, List.mem_filter] at h
  obtain ⟨kw0, ⟨hmem, hcond⟩, heq⟩ := h
  have hstrip : pyStrip kw0 ≠ [] := by
    intro hnil
    simp [Bool.and_eq_true, List.isEmpty_eq_true, hnil] at hcond
  refine ⟨?_, kw0, hmem, hstrip, heq⟩
  intro hknil
  apply hstrip
  have h2 : lowerStr (pyStrip kw0) = [] := by rw [heq, hknil]
  simpa [lowerStr] using h2

/-! ### Claim theorems -/

/-- C3 counterexample: the tokenizer treats the underscore as a word
character, so on the text a_b it returns the single token a_b, while the
splitting claimed by the spec (anything that is not a letter or digit is a
separator) would return the two tokens a and b. -/
theorem C3_counterexample :
    tokenize (.str ('a' :: '_' :: 'b' :: [])) = (('a' :: '_' :: 'b' :: []) :: []) ∧
    (chunksBySep (fun c => !c.isAlphanum) (lowerStr ('a' :: '_' :: 'b' :: []))).filter
        (fun t => !t.isEmpty) = (('a' :: []) :: ('b' :: []) :: []) ∧
    tokenize (.str ('a' :: '_' :: 'b' :: [])) ≠
      (chunksBySep (fun c => !c.isAlphanum) (lowerStr ('a' :: '_' :: 'b' :: []))).filter
        (fun t => !t.isEmpty) := by
  refine ⟨by decide, by decide, by decide⟩

/-- C3 (amended): for every non-textual value tokenize returns the empty
sequence raising no error; for a string it returns, in left-to-right order,
exactly the maximal runs of word characters (Unicode letters, digits, or
underscore) of the lowercased text, with every other character acting
purely as a separator, and no emitted token is empty. -/
theorem C3_tokenize_amended :
    (∀ n, tokenize (.int n) = []) ∧ tokenize Value.na = [] ∧
    (∀ s, tokenize (.str s) =
      (chunksBySep (fun c => !isWordChar c) (lowerStr s)).filter (fun t => !t.isEmpty)) ∧
    (∀ v t, t ∈ tokenize v → t ≠ []) := by
  refine ⟨fun n => rfl, rfl, fun s => ?_, fun v t ht => (tokenize_token_facts v t ht).1⟩
  simpa [tokenize] using findallWordRuns_chunks (lowerStr s)

/-- Witness for C3_tokenize_amended at a concrete token of a concrete text. -/
theorem C3_tokenize_amended_witness :
    ('h' :: 'i' :: []) ≠ ([] : Str) :=
  C3_tokenize_amended.2.2.2 (Value.str ('h' :: 'i' :: [])) ('h' :: 'i' :: []) (by decide)

/-- C4: in whole-word mode a normalized keyword is in the matcher result
iff it equals some token of the tokenized text exactly, and the result
depends on the text only through which tokens are present, so repeating a
token in the text does not change the result. -/
theorem C4_whole_word (text : Value) (mkws : List Str) :
    (∀ kw, kw ∈ normalizedKeywords mkws →
      (kw ∈ extract_keywords_from_text text mkws false ↔
        ∃ t ∈ tokenize text, kw = t)) ∧
    (∀ text2, (∀ t, t ∈ tokenize text ↔ t ∈ tokenize text2) →
      extract_keywords_from_text text mkws false =
        extract_keywords_from_text text2 mkws false) := by
  constructor
  · intro kw hkw
    rw [mem_extract_whole]
    constructor
    · rintro ⟨-, hmem⟩
      exact ⟨kw, hmem, rfl⟩
    · rintro ⟨t, htmem, rfl⟩
      exact ⟨hkw, htmem⟩
  · intro text2 hsame
    by_cases h1 : tokenize text = []
    · have h2 : tokenize text2 = [] := by
        rw [List.eq_nil_iff_forall_not_mem]
        intro a ha
        rw [h1] at hsame
        exact (List.not_mem_nil a) ((hsame a).mpr ha)
      rw [extract_tokens_empty text mkws false h1, extract_tokens_empty text2 mkws false h2]
    · have h2 : tokenize text2 ≠ [] := by
        intro h2
        apply h1
        rw [List.eq_nil_iff_forall_not_mem]
        intro a ha
        rw [h2] at hsame
        exact (List.not_mem_nil a) ((hsame a).mp ha)
      rw [extract_whole_eq text mkws (by simpa [List.isEmpty_eq_true] using h1),
        extract_whole_eq text2 mkws (by simpa [List.isEmpty_eq_true] using h2)]
      apply List.filter_congr
      intro kw hkw
      simp only [decide_eq_decide, List.mem_dedup]
      exact hsame kw

/-- Witness for C4_whole_word on the spec example text. -/
theorem C4_whole_word_witness :
    ('p' :: 'a' :: 'i' :: 'n' :: []) ∈
        extract_keywords_from_text (.str "the pain is bad".toList)
          (('p' :: 'a' :: 'i' :: 'n' :: []) :: []) false ↔
      ∃ t ∈ tokenize (.str "the pain is bad".toList),
        ('p' :: 'a' :: 'i' :: 'n' :: []) = t :=
  (C4_whole_word (.str "the pain is bad".toList)
    (('p' :: 'a' :: 'i' :: 'n' :: []) :: [])).1 _ (by decide)

/-- C5: in substring mode a normalized keyword is in the matcher result iff
it is a contiguous substring of at least one token of the tokenized text;
in either mode, a text with no tokens gives the empty result. -/
theorem C5_substring (text : Value) (mkws : List Str) :
    (∀ kw, kw ∈ normalizedKeywords mkws →
      (kw ∈ extract_keywords_from_text text mkws true ↔
        ∃ t ∈ tokenize text, ∃ pre post, pre ++ kw ++ post = t)) ∧
    (∀ b, tokenize text = [] → extract_keywords_from_text text mkws b = []) := by
  constructor
  · intro kw hkw
    rw [mem_extract_substr]
    constructor
    · rintro ⟨-, t, ht, hsub⟩
      exact ⟨t, ht, (substrIn_iff kw t).mp hsub⟩
    · rintro ⟨t, ht, hdecomp⟩
      exact ⟨hkw, t, ht, (substrIn_iff kw t).mpr hdecomp⟩
  · intro b h
    exact extract_tokens_empty text mkws b h

/-- Witness for C5_substring on the spec example text painless, plus the
empty-token guarantee at a non-textual value. -/
theorem C5_substring_witness :
    (('p' :: 'a' :: 'i' :: 'n' :: []) ∈
        extract_keywords_from_text (.str "painless".toList)
          (('p' :: 'a' :: 'i' :: 'n' :: []) :: []) true ↔
      ∃ t ∈ tokenize (.str "painless".toList), ∃ pre post,
        pre ++ ('p' :: 'a' :: 'i' :: 'n' :: []) ++ post = t) ∧
    extract_keywords_from_text Value.na (('p' :: 'a' :: 'i' :: 'n' :: []) :: []) false = [] :=
  ⟨(C5_substring (.str "painless".toList) (('p' :: 'a' :: 'i' :: 'n' :: []) :: [])).1 _
      (by decide),
    (C5_substring Value.na (('p' :: 'a' :: 'i' :: 'n' :: []) :: [])).2 false (by decide)⟩

/-- C6 counterexample: with the supplied keywords Pain-with-spaces and
pain, which agree after normalization, the matcher result contains the
normalized keyword pain twice, so a distinct normalized keyword does not
appear at most once in the result. -/
theorem C6_counterexample :
    (extract_keywords_from_text (.str ('p' :: 'a' :: 'i' :: 'n' :: []))
        ((' ' :: 'P' :: 'a' :: 'i' :: 'n' :: ' ' :: []) ::
          ('p' :: 'a' :: 'i' :: 'n' :: []) :: [])
        false).count ('p' :: 'a' :: 'i' :: 'n' :: []) = 2 := by
  decide

/-- C6 (amended): the matcher depends on the supplied keywords only through
their trimmed and lowercased forms (so entries that agree after
normalization are interchangeable); keywords that become empty after
normalization are never in the result; every result entry is the
normalized form of a supplied keyword and is non-empty; and each distinct
normalized keyword occurs in the result at most as often as it occurs in
the normalized keyword list, hence at most once when the supplied keywords
are distinct after normalization, even if it substring-matches several
tokens. -/
theorem C6_normalization (text : Value) (mkws : List Str) (mode : Bool) :
    (∀ mkws2, normalizedKeywords mkws = normalizedKeywords mkws2 →
      extract_keywords_from_text text mkws mode =
        extract_keywords_from_text text mkws2 mode) ∧
    (∀ kw, kw ∈ extract_keywords_from_text text mkws mode →
      kw ≠ [] ∧ ∃ kw0 ∈ mkws, pyStrip kw0 ≠ [] ∧ lowerStr (pyStrip kw0) = kw) ∧
    (∀ kw, (extract_keywords_from_text text mkws mode).count kw ≤
      (normalizedKeywords mkws).count kw) := by
  refine ⟨?_, ?_, ?_⟩
  · intro mkws2 h
    simp only [extract_keywords_from_text, h]
  · intro kw h
    exact mem_normalizedKeywords mkws kw (extract_subset_normalized text mkws mode kw h)
  · intro kw
    by_cases he : tokenize text = []
    · rw [extract_tokens_empty text mkws mode he]
      simp
    · have hne : ¬(tokenize text).isEmpty = true := by
        simpa [List.isEmpty_eq_true] using he
      cases mode with
      | false =>
        rw [extract_whole_eq text mkws hne]
        exact (List.filter_sublist _).count_le kw
      | true =>
        rw [extract_substr_eq text mkws hne]
        exact (List.filter_sublist _).count_le kw

/-- Witness for C6_normalization: the keyword list with Pain-with-spaces
and an empty entry behaves like the plain duplicate list, and the result
entry is the normalized form of a supplied keyword. -/
theorem C6_normalization_witness :
    extract_keywords_from_text (.str ('p' :: 'a' :: 'i' :: 'n' :: []))
        ((' ' :: 'P' :: 'a' :: 'i' :: 'n' :: ' ' :: []) :: ([] : Str) ::
          ('p' :: 'a' :: 'i' :: 'n' :: []) :: []) false =
      extract_keywords_from_text (.str ('p' :: 'a' :: 'i' :: 'n' :: []))
        (('p' :: 'a' :: 'i' :: 'n' :: []) :: ('p' :: 'a' :: 'i' :: 'n' :: []) :: []) false :=
  (C6_normalization (.str ('p' :: 'a' :: 'i' :: 'n' :: []))
    ((' ' :: 'P' :: 'a' :: 'i' :: 'n' :: ' ' :: []) :: ([] : Str) ::
      ('p' :: 'a' :: 'i' :: 'n' :: []) :: []) false).1 _ (by decide)

/-- C10: every keyword matched in whole-word mode is also matched in
substring mode; substring matching only ever adds matches. -/
theorem C10_whole_subset_substring (text : Value) (mkws : List Str) :
    ∀ kw, kw ∈ extract_keywords_from_text text mkws false →
      kw ∈ extract_keywords_from_text text mkws true := by
  intro kw h
  rw [mem_extract_whole] at h
  obtain ⟨hkws, htok⟩ := h
  rw [mem_extract_substr]
  exact ⟨hkws, kw, htok, substrIn_self kw⟩

/-- Witness for C10_whole_subset_substring on a concrete matching text. -/
theorem C10_whole_subset_substring_witness :
    ('p' :: 'a' :: 'i' :: 'n' :: []) ∈
      extract_keywords_from_text (.str "the pain is bad".toList)
        (('p' :: 'a' :: 'i' :: 'n' :: []) :: []) true :=
  C10_whole_subset_substring (.str "the pain is bad".toList)
    (('p' :: 'a' :: 'i' :: 'n' :: []) :: []) _ (by decide)

lemma missingColumns_isEmpty (df : Sheet) (pid tcol : Str) :
    (missingColumns df pid tcol).isEmpty = true ↔
      pid ∈ df.columns ∧ tcol ∈ df.columns := by
  by_cases hp : pid ∈ df.columns <;> by_cases ht : tcol ∈ df.columns <;>
    simp [missingColumns, List.filter_cons, List.isEmpty_eq_true, hp, ht]

lemma process_sheet_ok_inv (df : Sheet) (mkws : List Str) (pid tcol : Str) (sub : Bool)
    (res : ResultTable) (corpus : List Str)
    (h : process_sheet df mkws pid tcol sub = .ok (res, corpus)) :
    res = (if (df.rows.map fun r =>
          buildRow pid (r pid) (strippedKeywords mkws)
            (extract_keywords_from_text (coerceText (r tcol))
              (strippedKeywords mkws) sub)).isEmpty
        then (⟨pid :: strippedKeywords mkws, []⟩ : ResultTable)
        else ⟨dictKeysUnion (df.rows.map fun r =>
            buildRow pid (r pid) (strippedKeywords mkws)
              (extract_keywords_from_text (coerceText (r tcol))
                (strippedKeywords mkws) sub)),
          df.rows.map fun r =>
            buildRow pid (r pid) (strippedKeywords mkws)
              (extract_keywords_from_text (coerceText (r tcol))
                (strippedKeywords mkws) sub)⟩) ∧
    corpus = (df.rows.map fun r =>
      (tokenize (coerceText (r tcol))).filter fun t =>
        decide (t ∉ DUTCH_STOPWORDS)).flatten := by
  by_cases hm : (missingColumns df pid tcol).isEmpty = true
  · simp only [process_sheet] at h
    rw [if_pos hm] at h
    simp only [Except.ok.injEq, Prod.mk.injEq] at h
    exact ⟨h.1.symm, h.2.symm⟩
  · simp only [process_sheet] at h
    rw [if_neg hm] at h
    exact absurd h (by simp)

lemma corpus_token_shape (df : Sheet) (tcol : Str) (t : Str)
    (h : t ∈ (df.rows.map fun r =>
      (tokenize (coerceText (r tcol))).filter fun s =>
        decide (s ∉ DUTCH_STOPWORDS)).flatten) :
    t ≠ [] ∧ ∀ c ∈ t, isWordChar c = true := by
  rw [List.mem_flatten] at h
  obtain ⟨l, hl, htl⟩ := h
  rw [List.mem_map] at hl
  obtain ⟨r, -, rfl⟩ := hl
  exact tokenize_token_facts _ t (List.mem_filter.mp htl).1

/-- C1 code bug, evaluated at the failing input: one record whose report
text is the word pain, with the single supplied keyword Pain.  The matcher
does find the keyword (its normalized form pain is matched), yet the
produced row carries the trimmed-but-not-lowercased column name Pain with
flag 0, because process_sheet compares the unlowered keyword against the
lowercased matched set. -/
theorem C1_keyword_case_bug :
    process_sheet onePainSheet [('P' :: 'a' :: 'i' :: 'n' :: [])] colId colReport false =
      .ok (ResultTable.mk [colId, ('P' :: 'a' :: 'i' :: 'n' :: [])]
          [[(colId, Value.int 1), (('P' :: 'a' :: 'i' :: 'n' :: []), Value.int 0)]],
        [('p' :: 'a' :: 'i' :: 'n' :: [])]) ∧
    extract_keywords_from_text (.str "pain".toList)
        [('P' :: 'a' :: 'i' :: 'n' :: [])] false =
      [('p' :: 'a' :: 'i' :: 'n' :: [])] := by
  exact ⟨by rfl, by rfl⟩

/-- C2 counterexample: with one record whose text is de patient, the Dutch
stopword de is a token of the record, but the corpus returned by
process_sheet is only the word patient: the accumulated corpus is filtered
against the stopword set, not the pre-stopword token concatenation the
claim describes. -/
theorem C2_counterexample :
    process_sheet dePatientSheet [] colId colReport false =
      .ok (ResultTable.mk [colId] [[(colId, Value.int 1)]],
        [('p' :: 'a' :: 't' :: 'i' :: 'e' :: 'n' :: 't' :: [])]) ∧
    tokenize (.str "de patient".toList) =
      [('d' :: 'e' :: []), ('p' :: 'a' :: 't' :: 'i' :: 'e' :: 'n' :: 't' :: [])] ∧
    ('d' :: 'e' :: []) ∉ [('p' :: 'a' :: 't' :: 'i' :: 'e' :: 'n' :: 't' :: [])] := by
  exact ⟨by rfl, by decide, by decide⟩

/-- C2 (amended): the Corpus returned by process_sheet is the
stopword-filtered concatenation, in scan order, of every record's token
sequence: it equals the concatenation of all token sequences with the
tokens belonging to the Dutch stopword set removed, and no stopword token
ever occurs in it. -/
theorem C2_corpus_stopword_filtered (df : Sheet) (mkws : List Str) (pid tcol : Str)
    (sub : Bool) (res : ResultTable) (corpus : List Str)
    (h : process_sheet df mkws pid tcol sub = .ok (res, corpus)) :
    corpus = ((df.rows.map fun r => tokenize (coerceText (r tcol))).flatten).filter
        (fun t => decide (t ∉ DUTCH_STOPWORDS)) ∧
    ∀ t ∈ corpus, t ∉ DUTCH_STOPWORDS := by
  obtain ⟨-, hcorp⟩ := process_sheet_ok_inv df mkws pid tcol sub res corpus h
  constructor
  · rw [hcorp, List.filter_flatten, List.map_map]
    rfl
  · intro t ht
    rw [hcorp, List.mem_flatten] at ht
    obtain ⟨l, hl, htl⟩ := ht
    rw [List.mem_map] at hl
    obtain ⟨r, -, rfl⟩ := hl
    simpa using (List.mem_filter.mp htl).2

/-- Witness for C2_corpus_stopword_filtered at a concrete one-record sheet. -/
theorem C2_corpus_stopword_filtered_witness :
    [('p' :: 'a' :: 't' :: 'i' :: 'e' :: 'n' :: 't' :: [])] =
      ((dePatientSheet.rows.map fun r =>
        tokenize (coerceText (r colReport))).flatten).filter
          (fun t => decide (t ∉ DUTCH_STOPWORDS)) ∧
    ∀ t ∈ [('p' :: 'a' :: 't' :: 'i' :: 'e' :: 'n' :: 't' :: [])], t ∉ DUTCH_STOPWORDS :=
  C2_corpus_stopword_filtered dePatientSheet [] colId colReport false
    (ResultTable.mk [colId] [[(colId, Value.int 1)]])
    [('p' :: 'a' :: 't' :: 'i' :: 'e' :: 'n' :: 't' :: [])] rfl

/-- C7: process_sheet reports a schema error exactly when the identifier
column or the text column is absent from the loaded schema, and every such
error message carries the list of actually available columns; on error no
result table and no corpus are produced. -/
theorem C7_schema_error (df : Sheet) (mkws : List Str) (pid tcol : Str) (sub : Bool) :
    ((∃ msg, process_sheet df mkws pid tcol sub = .error msg) ↔
      (pid ∉ df.columns ∨ tcol ∉ df.columns)) ∧
    (∀ msg, process_sheet df mkws pid tcol sub = .error msg →
      joinSep commaSpace df.columns <:+ msg) := by
  constructor
  · constructor
    · rintro ⟨msg, hmsg⟩
      by_contra hcol
      push_neg at hcol
      have hm : (missingColumns df pid tcol).isEmpty = true :=
        (missingColumns_isEmpty df pid tcol).mpr ⟨hcol.1, hcol.2⟩
      simp only [process_sheet] at hmsg
      rw [if_pos hm] at hmsg
      exact absurd hmsg (by simp)
    · intro hcol
      have hm : ¬(missingColumns df pid tcol).isEmpty = true := by
        rw [missingColumns_isEmpty]
        tauto
      exact ⟨_, by simp only [process_sheet]; rw [if_neg hm]⟩
  · intro msg hmsg
    by_cases hm : (missingColumns df pid tcol).isEmpty = true
    · simp only [process_sheet] at hmsg
      rw [if_pos hm] at hmsg
      exact absurd hmsg (by simp)
    · simp only [process_sheet] at hmsg
      rw [if_neg hm] at hmsg
      have hmsgeq : msg = missingMsgA ++ joinSep commaSpace (missingColumns df pid tcol) ++
          (missingMsgB ++ joinSep commaSpace df.columns) := by
        simpa using hmsg.symm
      rw [hmsgeq]
      exact ⟨missingMsgA ++ joinSep commaSpace (missingColumns df pid tcol) ++ missingMsgB,
        by simp [List.append_assoc]⟩

/-- Witness for C7_schema_error: asking for the column missing_col on a
sheet whose schema is patient_id and Report raises, and the message carries
the available columns. -/
theorem C7_schema_error_witness :
    (∃ msg, process_sheet onePainSheet [] "missing_col".toList colReport false = .error msg) ∧
    joinSep commaSpace onePainSheet.columns <:+
      (missingMsgA ++
        joinSep commaSpace (missingColumns onePainSheet "missing_col".toList colReport) ++
        (missingMsgB ++ joinSep commaSpace onePainSheet.columns)) :=
  ⟨(C7_schema_error onePainSheet [] "missing_col".toList colReport false).1.mpr
      (Or.inl (by decide)),
    (C7_schema_error onePainSheet [] "missing_col".toList colReport false).2 _ rfl⟩

/-- C8: a successful pass returns exactly one result row per input record,
and on zero records the table still carries the identifier column followed
by the keyword columns. -/
theorem C8_row_count (df : Sheet) (mkws : List Str) (pid tcol : Str) (sub : Bool)
    (res : ResultTable) (corpus : List Str)
    (h : process_sheet df mkws pid tcol sub = .ok (res, corpus)) :
    res.rows.length = df.rows.length ∧
    (df.rows = [] → res.columns = pid :: strippedKeywords mkws) := by
  obtain ⟨hres, -⟩ := process_sheet_ok_inv df mkws pid tcol sub res corpus h
  by_cases hrows : df.rows = []
  · rw [hrows] at hres
    simp only [List.map_nil, List.isEmpty_nil, if_true] at hres
    rw [hres, hrows]
    exact ⟨rfl, fun _ => rfl⟩
  · have hne : ¬(df.rows.map fun r =>
        buildRow pid (r pid) (strippedKeywords mkws)
          (extract_keywords_from_text (coerceText (r tcol))
            (strippedKeywords mkws) sub)).isEmpty = true := by
      simp [List.isEmpty_eq_true, hrows]
    rw [if_neg hne] at hres
    rw [hres]
    exact ⟨by simp, fun hc => absurd hc hrows⟩

/-- Witness for C8_row_count on the empty sheet with no keywords. -/
theorem C8_row_count_witness :
    (ResultTable.mk [colId] []).rows.length = emptySheet.rows.length ∧
    (emptySheet.rows = [] →
      (ResultTable.mk [colId] []).columns = colId :: strippedKeywords []) :=
  C8_row_count emptySheet [] colId colReport false (ResultTable.mk [colId] []) [] rfl

/-- C9: for a corpus produced by the aggregation pass, the word-cloud step
fails iff that stopword-filtered corpus has zero tokens, and the only error
it ever reports is the empty-corpus message; no image text is produced in
that case. -/
theorem C9_empty_corpus (df : Sheet) (mkws : List Str) (pid tcol : Str) (sub : Bool)
    (res : ResultTable) (corpus : List Str)
    (h : process_sheet df mkws pid tcol sub = .ok (res, corpus)) :
    ((∃ msg, build_wordcloud_image corpus = .error msg) ↔ corpus = []) ∧
    (∀ msg, build_wordcloud_image corpus = .error msg → msg = emptyCorpusMsg) := by
  obtain ⟨-, hcorp⟩ := process_sheet_ok_inv df mkws pid tcol sub res corpus h
  have hshape : ∀ t ∈ corpus, t ≠ [] ∧ ∀ c ∈ t, isWordChar c = true := by
    intro t ht
    rw [hcorp] at ht
    exact corpus_token_shape df tcol t ht
  constructor
  · constructor
    · rintro ⟨msg, hmsg⟩
      by_contra hne
      rcases corpus with _ | ⟨w, rest⟩
      · exact hne rfl
      · obtain ⟨hwne, hwchars⟩ := hshape w (List.mem_cons_self w rest)
        rcases w with _ | ⟨c, wrest⟩
        · exact hwne rfl
        · have hc : c ∈ joinSep (' ' :: []) ((c :: wrest) :: rest) :=
            mem_joinSep (' ' :: []) ((c :: wrest) :: rest) (c :: wrest) c
              (List.mem_cons_self _ _) (List.mem_cons_self _ _)
          have hcw : isWordChar c = true := hwchars c (List.mem_cons_self c wrest)
          have hstrip : pyStrip (joinSep (' ' :: []) ((c :: wrest) :: rest)) ≠ [] := by
            intro hnil
            have hws := (pyStrip_eq_nil_iff _).mp hnil c hc
            rw [whitespace_not_wordChar c hws] at hcw
            exact Bool.false_ne_true hcw
          simp only [build_wordcloud_image] at hmsg
          rw [if_neg (by simpa [List.isEmpty_eq_true] using hstrip)] at hmsg
          exact absurd hmsg (by simp)
    · intro hc
      rw [hc]
      exact ⟨emptyCorpusMsg, rfl⟩
  · intro msg hmsg
    simp only [build_wordcloud_image] at hmsg
    by_cases hb : (pyStrip (joinSep (' ' :: []) corpus)).isEmpty = true
    · rw [if_pos hb] at hmsg
      simpa using hmsg.symm
    · rw [if_neg hb] at hmsg
      exact absurd hmsg (by simp)

/-- Witness for C9_empty_corpus on the empty sheet, whose corpus is empty. -/
theorem C9_empty_corpus_witness :
    (∃ msg, build_wordcloud_image ([] : List Str) = .error msg) ∧
    emptyCorpusMsg = emptyCorpusMsg :=
  ⟨(C9_empty_corpus emptySheet [] colId colReport false
      (ResultTable.mk [colId] []) [] rfl).1.mpr rfl,
    (C9_empty_corpus emptySheet [] colId colReport false
      (ResultTable.mk [colId] []) [] rfl).2 emptyCorpusMsg rfl⟩
